import Mathlib

/-!
Verification of `internal/helpers/util.go` of the shhgit repository.

The Go functions are shallowly embedded as Lean definitions:

* `FetchUrlAs` (util.go lines 102-127) — the HTTP fetch-and-decode helper.
  The HTTP transport is abstracted as a `DoResult` value describing what
  `http.DefaultClient.Do` and the subsequent `ioutil.ReadAll` produced;
  JSON decoding is abstracted as a caller-supplied `unmarshal` function.
* `GetEntropy` (lines 65-78) — the byte-loop Shannon-entropy scorer, with
  `float64` idealised as `ℝ` and `strings.Count` embedded exactly
  (non-overlapping substring counting, and `string(byte(i))` producing the
  UTF-8 encoding of code point `i`, which is two bytes for `i ≥ 128`).
* `GetCheckableFiles` (lines 129-157) — the blacklist-driven file
  enumerator.  `filepath.Walk` is abstracted as the list of callback
  invocations it performs (path, isDir, size, per-entry error).
* `GetRandomToken` (lines 185-188) — credential selection; `rand.Intn`
  and Go slice indexing are embedded with their panic behaviour made
  explicit as a `GoResult` value, and the random source passed explicitly.

Strings are Lean `String`s (Go strings are byte strings; for entropy we
use `List Nat` byte lists).  Machine integers are embedded as `Int`/`Nat`;
no operation relevant to the proved statements can overflow `int64`.
-/

/-- Errors produced by `FetchUrlAs` (util.go lines 102-127). -/
inductive GoError where
  /-- `errors.New("rate limited")`, returned for HTTP 429 (line 112). -/
  | rateLimited : GoError
  /-- `errors.New("internal server error")`, returned for HTTP 500 (line 114). -/
  | internalServerError : GoError
  /-- `fmt.Errorf("got %s, wanted 200 OK", resp.Status)` (line 118). -/
  | unexpectedStatus (msg : String) : GoError
  /-- An error returned by `json.Unmarshal` (line 122). -/
  | jsonError (msg : String) : GoError
deriving DecidableEq, Repr

/-- Outcome of `http.DefaultClient.Do` (line 108) together with the result
of `ioutil.ReadAll(resp.Body)` (line 121) when a response was produced.
`status` is `resp.StatusCode`, `statusText` is `resp.Status`, and
`readResult` is the body-read outcome (`contents` or a read error). -/
inductive DoResult (β : Type) where
  /-- The transport failed (connection refused, DNS, TLS, timeout):
  `Do` returned a non-nil error and no response. -/
  | doErr (msg : String) : DoResult β
  /-- A response was received. -/
  | resp (status : Nat) (statusText : String) (readResult : Except String β) : DoResult β

/-- `FetchUrlAs` (util.go lines 102-127), modelled for runs in which
`http.NewRequest` succeeds (so the outer `err` of line 103 is nil; every
scenario considered here constructs the request successfully).

The result pairs the returned Go `error` (`none` = nil) with the value the
caller-supplied target `v` was populated with (`none` = `v` untouched).
Note the Go source shadows `err` in the `if` at line 108: the `return err`
at line 126 returns the *outer* `err`, which is nil here.  Consequently the
paths that fall through to line 126 (transport failure, body-read failure)
return a nil error. -/
def FetchUrlAs {β α : Type} (doRes : DoResult β) (unmarshal : β → Except String α) :
    Option GoError × Option α :=
  match doRes with
  | .resp status statusText readResult =>
    if status = 429 then (some .rateLimited, none)
    else if status = 500 then (some .internalServerError, none)
    else if status ≠ 200 then
      (some (.unexpectedStatus ("got " ++ statusText ++ ", wanted 200 OK")), none)
    else
      match readResult with
      | .ok contents =>
        match unmarshal contents with
        | .ok v => (none, some v)
        | .error m => (some (.jsonError m), none)
      | .error _ => (none, none)
  | .doErr _ => (none, none)

/-- Result of a Go expression that may panic. -/
inductive GoResult (α : Type) where
  | ok (val : α) : GoResult α
  | panic (msg : String) : GoResult α
deriving DecidableEq, Repr

/-- `rand.Intn(n)`: panics with "invalid argument to Intn" when `n ≤ 0`,
otherwise returns a value in `[0, n)`; the random draw is made explicit as
the argument `r`. -/
def randIntn (n : Int) (r : Nat) : GoResult Nat :=
  if n ≤ 0 then .panic "invalid argument to Intn" else .ok (r % n.toNat)

/-- Go slice indexing `s[i]`: panics when the index is out of range. -/
def sliceIndex (s : List String) (i : Nat) : GoResult String :=
  if h : i < s.length then .ok (s.get ⟨i, h⟩) else .panic "index out of range"

/-- Modelled from the spec: `settings.ConfigSource` (not under src/) carries
the ordered credential pool `Tokens`. -/
structure ConfigSource where
  Tokens : List String
deriving DecidableEq

/-- `GetRandomToken` (util.go lines 185-188): selects
`Tokens[rand.Intn(len(Tokens))]`.  The random draw `r` is explicit. -/
def GetRandomToken (configSource : ConfigSource) (r : Nat) : GoResult String :=
  let numberOfTokens := configSource.Tokens.length
  match randIntn (numberOfTokens : Int) r with
  | .panic m => .panic m
  | .ok idx => sliceIndex configSource.Tokens idx

/-- Scan of the reversed path used by `filepath.Ext`: walk from the end of
the path; stop with the empty extension at a path separator (Unix `'/'`),
and on the final dot return the dot plus the accumulated suffix. -/
def extAux : List Char → List Char → List Char
  | [], _ => []
  | c :: rest, seen =>
    if c = '/' then []
    else if c = '.' then '.' :: seen
    else extAux rest (c :: seen)

/-- `filepath.Ext(path)`: the suffix beginning at the final dot in the final
slash-separated element of `path`; empty if there is no dot. -/
def fileExt (path : String) : String := ⟨extAux path.data.reverse []⟩

/-- `strings.ToLower`, modelled on its ASCII fragment (Lean's
`Char.toLower`, which coincides with Go on basic latin letters). -/
def strToLower (s : String) : String := ⟨s.data.map Char.toLower⟩

/-- `filepath.ToSlash(path)`: replaces the OS path separator by `'/'`;
on Unix the separator already is `'/'`, so this is the identity. -/
def toSlash (path : String) : String := path

/-- Does the list start with the given pattern? (Helper for
`strings.Contains`.) -/
def strStarts {α : Type} [BEq α] : List α → List α → Bool
  | [], _ => true
  | _ :: _, [] => false
  | p :: ps, x :: xs => p == x && strStarts ps xs

/-- Substring test on lists: some suffix of `s` starts with `sub`. -/
def strContainsL {α : Type} [BEq α] : List α → List α → Bool
  | s, sub =>
    strStarts sub s ||
      match s with
      | [] => false
      | _ :: xs => strContainsL xs sub

/-- `strings.Contains(s, substr)`. -/
def stringsContains (s sub : String) : Bool := strContainsL s.data sub.data

/-- Modelled from the spec: `settings.ConfigBlacklists` (not under src/)
carries the excluded extension set and the excluded path-substring set. -/
structure ConfigBlacklists where
  Extensions : List String
  Paths : List String
deriving DecidableEq

/-- Modelled from the spec: `types.MatchFile` (not under src/) is the
Candidate File record produced by `types.NewMatchFile(path)`; it is keyed
by the discovered path. -/
structure MatchFile where
  Path : String
deriving DecidableEq

/-- Modelled from the spec: `types.NewMatchFile(path)` builds the Candidate
File for `path`. -/
def NewMatchFile (path : String) : MatchFile := ⟨path⟩

/-- One invocation of the `filepath.Walk` callback in `GetCheckableFiles`:
the visited path, whether it is a directory, its size, and whether the walk
delivered an error for this entry (`err != nil`). -/
structure WalkEntry where
  path : String
  isDir : Bool
  size : Int
  err : Bool
deriving DecidableEq

/-- The body of the `filepath.Walk` callback of `GetCheckableFiles`
(util.go lines 133-154), acting on the accumulated `fileList`:
entries with a walk error, directories and files above the size bound are
skipped; then the lowercased extension is compared against each
blacklisted extension and the slash-normalized path is tested for each
blacklisted path substring; surviving entries are appended. -/
def checkStep (maximumFileSizeKb : Int) (blacklists : ConfigBlacklists)
    (fileList : List MatchFile) (e : WalkEntry) : List MatchFile :=
  if e.err = true ∨ e.isDir = true ∨ e.size > maximumFileSizeKb then fileList
  else if blacklists.Extensions.any
      (fun skippableExt => strToLower (fileExt e.path) == skippableExt) then fileList
  else if blacklists.Paths.any
      (fun skippablePathIndicator =>
        stringsContains (toSlash e.path) skippablePathIndicator) then fileList
  else fileList ++ [NewMatchFile e.path]

/-- `GetCheckableFiles` (util.go lines 129-157): folds the walk callback
over the sequence of entries visited by `filepath.Walk`, starting from the
empty file list, with the size ceiling `maximumFileSize * 1024`. -/
def GetCheckableFiles (entries : List WalkEntry) (maximumFileSize : Int)
    (blacklists : ConfigBlacklists) : List MatchFile :=
  entries.foldl (checkStep (maximumFileSize * 1024) blacklists) []

/-- The conditions under which the walk callback emits a Candidate File for
an entry. -/
def passesFilters (maximumFileSizeKb : Int) (blacklists : ConfigBlacklists)
    (e : WalkEntry) : Prop :=
  e.err = false ∧ e.isDir = false ∧ e.size ≤ maximumFileSizeKb ∧
  (∀ sk ∈ blacklists.Extensions, strToLower (fileExt e.path) ≠ sk) ∧
  (∀ ind ∈ blacklists.Paths, stringsContains (toSlash e.path) ind = false)

/-- Left-to-right non-overlapping scan underlying `strings.Count(s, pat)`
for a non-empty pattern: at each position either the pattern matches (count
one occurrence and skip the `pat.length - 1` positions it covers beyond the
current one) or move one position right.  The `skip` argument records how
many positions of the current match remain to be passed over. -/
def goCountSkip (pat : List Nat) : List Nat → Nat → Nat
  | [], _ => 0
  | _ :: xs, skip + 1 => goCountSkip pat xs skip
  | x :: xs, 0 =>
    if strStarts pat (x :: xs) then 1 + goCountSkip pat xs (pat.length - 1)
    else goCountSkip pat xs 0

/-- `strings.Count(s, pat)`: the number of non-overlapping instances of
`pat` in `s` (both byte strings, embedded as `List Nat`). -/
def stringsCount (s pat : List Nat) : Nat := goCountSkip pat s 0

/-- The byte string produced by Go's `string(byte(i))` for `0 ≤ i < 256`:
the UTF-8 encoding of code point `i` — the single byte `i` when `i < 128`,
and the two-byte sequence `[0xC0 ∣ (i >> 6), 0x80 ∣ (i & 0x3F)]` when
`128 ≤ i < 256`. -/
def utf8pat (i : Nat) : List Nat :=
  if i < 128 then [i] else [192 + i / 64, 128 + i % 64]

/-- The loop body of `GetEntropy` (util.go line 72-74): contribute
`-px * log2 px` when `px > 0`, nothing otherwise.  `float64` is idealised
as `ℝ`. -/
noncomputable def entropyTerm (px : ℝ) : ℝ :=
  if px > 0 then -px * Real.logb 2 px else 0

/-- `GetEntropy` (util.go lines 65-78): `0` for the empty string, else the
sum over `i = 0..255` of the entropy contribution of
`px = strings.Count(data, string(byte(i))) / len(data)`. -/
noncomputable def GetEntropy (data : List Nat) : ℝ :=
  if data = [] then 0
  else ∑ i ∈ Finset.range 256,
    entropyTerm ((stringsCount data (utf8pat i) : ℝ) / (data.length : ℝ))

/-- Modelled from the spec: the byte-level empirical Shannon entropy — the
negative sum, over the 256 byte values with nonzero occurrence count, of
`(count/length) * log2 (count/length)`, with `0` for the empty string. -/
noncomputable def byteShannonEntropy (data : List Nat) : ℝ :=
  if data = [] then 0
  else ∑ i ∈ Finset.range 256,
    entropyTerm ((data.count i : ℝ) / (data.length : ℝ))

/-- Number of positions of `s` at which `pat` matches (proof device
bounding `goCountSkip`). -/
def countStarts (pat : List Nat) : List Nat → Nat
  | [] => 0
  | x :: xs => (if strStarts pat (x :: xs) then 1 else 0) + countStarts pat xs

/-- The code point whose `utf8pat` encoding could match at the head of `s`
(proof device: at most one pattern matches at any position). -/
def decodeFirst : List Nat → Nat
  | [] => 0
  | [x] => if x < 128 then x else 0
  | x :: y :: _ => if x < 128 then x else (x - 192) * 64 + (y - 128)

theorem checkStep_pass {kb : Int} {bl : ConfigBlacklists} {e : WalkEntry}
    (h : passesFilters kb bl e) (acc : List MatchFile) :
    checkStep kb bl acc e = acc ++ [NewMatchFile e.path] := by
  obtain ⟨he, hd, hs, hext, hpath⟩ := h
  unfold checkStep
  rw [if_neg, if_neg, if_neg]
  · simp only [List.any_eq_true, not_exists, not_and]
    intro ind hind
    simp [hpath ind hind]
  · simp only [List.any_eq_true, not_exists, not_and]
    intro sk hsk
    simp [hext sk hsk]
  · rw [he, hd]
    simp
    omega

theorem checkStep_fail {kb : Int} {bl : ConfigBlacklists} {e : WalkEntry}
    (h : ¬ passesFilters kb bl e) (acc : List MatchFile) :
    checkStep kb bl acc e = acc := by
  unfold checkStep
  split_ifs with h1 h2 h3
  · rfl
  · rfl
  · rfl
  · exfalso
    apply h
    push_neg at h1
    obtain ⟨he, hd, hs⟩ := h1
    refine ⟨by simpa using he, by simpa using hd, hs, ?_, ?_⟩
    · intro sk hsk
      simp only [List.any_eq_true, not_exists, not_and] at h2
      simpa using h2 sk hsk
    · intro ind hind
      simp only [List.any_eq_true, not_exists, not_and] at h3
      simpa using h3 ind hind

theorem mem_foldl_checkStep {kb : Int} {bl : ConfigBlacklists} :
    ∀ (l : List WalkEntry) (acc : List MatchFile) (f : MatchFile),
      f ∈ List.foldl (checkStep kb bl) acc l ↔
        f ∈ acc ∨ ∃ e ∈ l, passesFilters kb bl e ∧ f = NewMatchFile e.path := by
  intro l
  induction l with
  | nil => simp
  | cons e l ih =>
    intro acc f
    rw [List.foldl_cons, ih]
    by_cases h : passesFilters kb bl e
    · rw [checkStep_pass h]
      constructor
      · rintro (hf | ⟨e', he', hp, rfl⟩)
        · rcases List.mem_append.mp hf with hf | hf
          · exact Or.inl hf
          · exact Or.inr ⟨e, List.mem_cons_self e l, h, (List.mem_singleton.mp hf).symm ▸ rfl⟩
        · exact Or.inr ⟨e', List.mem_cons_of_mem e he', hp, rfl⟩
      · rintro (hf | ⟨e', he', hp, rfl⟩)
        · exact Or.inl (List.mem_append.mpr (Or.inl hf))
        · rcases List.mem_cons.mp he' with rfl | he'
          · exact Or.inl (List.mem_append.mpr (Or.inr (List.mem_singleton.mpr rfl)))
          · exact Or.inr ⟨e', he', hp, rfl⟩
    · rw [checkStep_fail h]
      constructor
      · rintro (hf | ⟨e', he', hp, rfl⟩)
        · exact Or.inl hf
        · exact Or.inr ⟨e', List.mem_cons_of_mem e he', hp, rfl⟩
      · rintro (hf | ⟨e', he', hp, rfl⟩)
        · exact Or.inl hf
        · rcases List.mem_cons.mp he' with rfl | he'
          · exact absurd hp h
          · exact Or.inr ⟨e', he', hp, rfl⟩

/-- C4: every Candidate File returned by `GetCheckableFiles` comes from a
visited entry whose size is at most `maximumFileSize * 1024` bytes, whose
lowercased extension equals no blacklisted extension, and whose
slash-normalized path contains no blacklisted path substring — over all
entry sequences, including ones containing entries violating each rule. -/
theorem getCheckableFiles_sound
    (entries : List WalkEntry) (maximumFileSize : Int) (bl : ConfigBlacklists)
    (f : MatchFile) (hf : f ∈ GetCheckableFiles entries maximumFileSize bl) :
    ∃ e ∈ entries, f = NewMatchFile e.path ∧
      e.size ≤ maximumFileSize * 1024 ∧
      (∀ sk ∈ bl.Extensions, strToLower (fileExt e.path) ≠ sk) ∧
      (∀ ind ∈ bl.Paths, stringsContains (toSlash e.path) ind = false) := by
  rcases (mem_foldl_checkStep entries [] f).mp hf with hf | ⟨e, he, hp, rfl⟩
  · simp at hf
  · exact ⟨e, he, rfl, hp.2.2.1, hp.2.2.2.1, hp.2.2.2.2⟩

/-- Witness for C4: a concrete tree with an oversized file, a blacklisted
`.exe` file, a `node_modules` path and one good file; the good file is
returned and the theorem applies to it. -/
theorem getCheckableFiles_sound_witness :
    (NewMatchFile "/r/a.txt" ∈ GetCheckableFiles
      [⟨"/r/big.txt", false, 5000, false⟩,
       ⟨"/r/tool.EXE", false, 10, false⟩,
       ⟨"/r/node_modules/x.js", false, 10, false⟩,
       ⟨"/r/a.txt", false, 10, false⟩]
      1 ⟨[".exe"], ["node_modules"]⟩) ∧
    (∃ e ∈ [(⟨"/r/big.txt", false, 5000, false⟩ : WalkEntry),
       ⟨"/r/tool.EXE", false, 10, false⟩,
       ⟨"/r/node_modules/x.js", false, 10, false⟩,
       ⟨"/r/a.txt", false, 10, false⟩],
      NewMatchFile "/r/a.txt" = NewMatchFile e.path ∧
      e.size ≤ 1 * 1024 ∧
      (∀ sk ∈ [".exe"], strToLower (fileExt e.path) ≠ sk) ∧
      (∀ ind ∈ ["node_modules"], stringsContains (toSlash e.path) ind = false)) := by
  have hmem : NewMatchFile "/r/a.txt" ∈ GetCheckableFiles
      [⟨"/r/big.txt", false, 5000, false⟩,
       ⟨"/r/tool.EXE", false, 10, false⟩,
       ⟨"/r/node_modules/x.js", false, 10, false⟩,
       ⟨"/r/a.txt", false, 10, false⟩]
      1 ⟨[".exe"], ["node_modules"]⟩ := by decide
  exact ⟨hmem, getCheckableFiles_sound _ 1 ⟨[".exe"], ["node_modules"]⟩ _ hmem⟩

/-- Counterexample for C6: with blacklisted extension `".EXE"` and
blacklisted path substring `"secret"`, the file `/repo/SECRET/App.EXE` is
emitted even though, ignoring letter case, its extension equals the
blacklisted extension and its path contains the blacklisted substring —
so blacklist matching is not case-insensitive as claimed (the extension is
lowercased before a case-sensitive comparison, and the path test is fully
case-sensitive). -/
theorem getCheckableFiles_not_case_insensitive :
    GetCheckableFiles [⟨"/repo/SECRET/App.EXE", false, 10, false⟩] 1
        ⟨[".EXE"], ["secret"]⟩ = [NewMatchFile "/repo/SECRET/App.EXE"] ∧
    strToLower (fileExt "/repo/SECRET/App.EXE") = strToLower ".EXE" ∧
    stringsContains (strToLower (toSlash "/repo/SECRET/App.EXE"))
      (strToLower "secret") = true := by decide

/-- C6 amended: an entry is emitted exactly when it is no directory, has no
walk error, fits the size bound, its *lowercased* extension differs
verbatim (case-sensitively) from every blacklisted extension, and its
slash-normalized path contains no blacklisted substring case-sensitively. -/
theorem getCheckableFiles_filter_semantics
    (e : WalkEntry) (maximumFileSize : Int) (bl : ConfigBlacklists) :
    NewMatchFile e.path ∈ GetCheckableFiles [e] maximumFileSize bl ↔
      (e.err = false ∧ e.isDir = false ∧ e.size ≤ maximumFileSize * 1024 ∧
       (∀ sk ∈ bl.Extensions, strToLower (fileExt e.path) ≠ sk) ∧
       (∀ ind ∈ bl.Paths, stringsContains (toSlash e.path) ind = false)) := by
  rw [show GetCheckableFiles [e] maximumFileSize bl =
        List.foldl (checkStep (maximumFileSize * 1024) bl) [] [e] from rfl,
      mem_foldl_checkStep]
  constructor
  · rintro (hf | ⟨e', he', hp, _⟩)
    · simp at hf
    · rcases List.mem_cons.mp he' with rfl | he'
      · exact hp
      · simp at he'
  · intro hp
    exact Or.inr ⟨e, List.mem_cons_self e [], hp, rfl⟩

/-- C8: entries for which the walk delivered an error are skipped and
enumeration continues: the result over any entry sequence equals the result
over the sequence with the erroneous entries removed, so one unreadable
entry never aborts the scan and all remaining candidates are returned. -/
theorem getCheckableFiles_skips_errored_entries
    (entries : List WalkEntry) (maximumFileSize : Int) (bl : ConfigBlacklists) :
    GetCheckableFiles entries maximumFileSize bl =
      GetCheckableFiles (entries.filter (fun e => !e.err)) maximumFileSize bl := by
  unfold GetCheckableFiles
  generalize ([] : List MatchFile) = acc
  induction entries generalizing acc with
  | nil => rfl
  | cons e l ih =>
    by_cases he : e.err = true
    · have hstep : checkStep (maximumFileSize * 1024) bl acc e = acc := by
        unfold checkStep
        rw [if_pos (Or.inl he)]
      rw [List.foldl_cons, hstep, List.filter_cons, if_neg (by simp [he])]
      exact ih acc
    · rw [List.foldl_cons, List.filter_cons, if_pos (by simpa using he),
        List.foldl_cons]
      exact ih _

/-- C1: every HTTP response is classified as the spec states: 429 yields the
rate-limited error, 500 the upstream-server error, any other non-200 status
the "unexpected status" error carrying the literal status text, a 200 whose
body decodes populates the target with the decoded value and returns nil,
and a 200 whose body fails to decode returns the decode error. -/
theorem fetchUrlAs_classifies_responses {β α : Type}
    (status : Nat) (statusText : String) (readResult : Except String β)
    (unmarshal : β → Except String α) :
    (status = 429 →
      FetchUrlAs (.resp status statusText readResult) unmarshal = (some .rateLimited, none)) ∧
    (status = 500 →
      FetchUrlAs (.resp status statusText readResult) unmarshal =
        (some .internalServerError, none)) ∧
    (status ≠ 429 → status ≠ 500 → status ≠ 200 →
      FetchUrlAs (.resp status statusText readResult) unmarshal =
        (some (.unexpectedStatus ("got " ++ statusText ++ ", wanted 200 OK")), none)) ∧
    (∀ contents v, status = 200 → readResult = .ok contents → unmarshal contents = .ok v →
      FetchUrlAs (.resp status statusText readResult) unmarshal = (none, some v)) ∧
    (∀ contents m, status = 200 → readResult = .ok contents → unmarshal contents = .error m →
      FetchUrlAs (.resp status statusText readResult) unmarshal =
        (some (.jsonError m), none)) := by
  refine ⟨?_, ?_, ?_, ?_, ?_⟩
  · rintro rfl; rfl
  · rintro rfl; rfl
  · intro h429 h500 h200
    simp [FetchUrlAs, h429, h500, h200]
  · rintro contents v rfl rfl hdec
    simp [FetchUrlAs, hdec]
  · rintro contents m rfl rfl hdec
    simp [FetchUrlAs, hdec]

/-- Witness for C1: each case of the classification instantiated at a
concrete request (body contents `"b"`, decoder succeeding with `7` resp.
failing with `"bad json"`). -/
theorem fetchUrlAs_classifies_responses_witness :
    FetchUrlAs (α := Nat) (.resp 429 "429 Too Many Requests" (.ok "b"))
      (fun _ => .ok 7) = (some .rateLimited, none) ∧
    FetchUrlAs (α := Nat) (.resp 500 "500 Internal Server Error" (.ok "b"))
      (fun _ => .ok 7) = (some .internalServerError, none) ∧
    FetchUrlAs (α := Nat) (.resp 404 "404 Not Found" (.ok "b"))
      (fun _ => .ok 7) = (some (.unexpectedStatus "got 404 Not Found, wanted 200 OK"), none) ∧
    FetchUrlAs (α := Nat) (.resp 200 "200 OK" (.ok "b"))
      (fun _ => .ok 7) = (none, some 7) ∧
    FetchUrlAs (α := Nat) (.resp 200 "200 OK" (.ok "b"))
      (fun _ => .error "bad json") = (some (.jsonError "bad json"), none) := by
  refine ⟨?_, ?_, ?_, ?_, ?_⟩
  · exact (fetchUrlAs_classifies_responses 429 "429 Too Many Requests" (.ok "b")
      (fun _ => .ok 7)).1 rfl
  · exact (fetchUrlAs_classifies_responses 500 "500 Internal Server Error" (.ok "b")
      (fun _ => .ok 7)).2.1 rfl
  · exact (fetchUrlAs_classifies_responses 404 "404 Not Found" (.ok "b")
      (fun _ => .ok 7)).2.2.1 (by decide) (by decide) (by decide)
  · exact (fetchUrlAs_classifies_responses 200 "200 OK" (.ok "b")
      (fun _ => .ok 7)).2.2.2.1 "b" 7 rfl rfl rfl
  · exact (fetchUrlAs_classifies_responses 200 "200 OK" (.ok "b")
      (fun _ => .error "bad json")).2.2.2.2 "b" "bad json" rfl rfl rfl

/-- C2 (code bug): when the transport fails — `Do` returns an error and no
response — `FetchUrlAs` nevertheless returns a nil error and leaves the
target unpopulated, because the `return err` at line 126 refers to the
outer (shadowed, nil) `err` of line 103, not to the `Do` error of
line 108.  Evaluated here at a concrete connection-refused failure. -/
theorem fetchUrlAs_transport_failure_returns_nil :
    FetchUrlAs (β := String) (α := Nat) (.doErr "connection refused")
      (fun _ => .ok 7) = (none, none) := rfl

/-- C10: a 200 response whose body read fails is reported as success —
`FetchUrlAs` returns a nil error (the outer, shadowed `err`) and the
caller-supplied target stays unpopulated; the read error is dropped. -/
theorem fetchUrlAs_read_failure_reports_success {β α : Type}
    (statusText : String) (m : String) (unmarshal : β → Except String α) :
    FetchUrlAs (.resp 200 statusText (.error m)) unmarshal = (none, none) := rfl

/-- C5 (code bug): with an empty credential pool, `GetRandomToken` reaches
`rand.Intn(0)`, which panics with "invalid argument to Intn"; no defined
error value is returned (the function's only return type is `string`). -/
theorem getRandomToken_empty_pool_panics (r : Nat) :
    GetRandomToken ⟨[]⟩ r = .panic "invalid argument to Intn" := rfl

theorem goCountSkip_le_countStarts (pat : List Nat) :
    ∀ (s : List Nat) (skip : Nat), goCountSkip pat s skip ≤ countStarts pat s := by
  intro s
  induction s with
  | nil => intro skip; simp [goCountSkip, countStarts]
  | cons x xs ih =>
    intro skip
    cases skip with
    | succ k =>
      calc goCountSkip pat (x :: xs) (k + 1) = goCountSkip pat xs k := rfl
        _ ≤ countStarts pat xs := ih k
        _ ≤ countStarts pat (x :: xs) := by
            rw [show countStarts pat (x :: xs) =
              (if strStarts pat (x :: xs) then 1 else 0) + countStarts pat xs from rfl]
            omega
    | zero =>
      show (if strStarts pat (x :: xs) then 1 + goCountSkip pat xs (pat.length - 1)
        else goCountSkip pat xs 0) ≤ countStarts pat (x :: xs)
      unfold countStarts
      split_ifs with h
      · have := ih (pat.length - 1)
        omega
      · have := ih 0
        omega

theorem strStarts_utf8pat_decodeFirst {i : Nat} (hi : i < 256) {s : List Nat}
    (hm : strStarts (utf8pat i) s = true) : i = decodeFirst s := by
  unfold utf8pat at hm
  by_cases h : i < 128
  · rw [if_pos h] at hm
    cases s with
    | nil => simp [strStarts] at hm
    | cons x xs =>
      simp only [strStarts, Bool.and_eq_true, beq_iff_eq] at hm
      obtain ⟨rfl, -⟩ := hm
      cases xs <;> simp [decodeFirst, h]
  · rw [if_neg h] at hm
    cases s with
    | nil => simp [strStarts] at hm
    | cons x xs =>
      cases xs with
      | nil => simp [strStarts] at hm
      | cons y ys =>
        simp only [strStarts, Bool.and_eq_true, beq_iff_eq] at hm
        obtain ⟨h1, h2, -⟩ := hm
        subst h1
        subst h2
        rw [show decodeFirst ((192 + i / 64) :: (128 + i % 64) :: ys) =
          if 192 + i / 64 < 128 then 192 + i / 64
          else (192 + i / 64 - 192) * 64 + (128 + i % 64 - 128) from rfl]
        rw [if_neg (by omega)]
        omega

theorem utf8pat_indicator_sum_le_one (s : List Nat) :
    (∑ i ∈ Finset.range 256, if strStarts (utf8pat i) s then 1 else 0) ≤ 1 := by
  have hmono : ∀ i ∈ Finset.range 256,
      (if strStarts (utf8pat i) s then 1 else 0) ≤
        (if i = decodeFirst s then 1 else 0) := by
    intro i hi
    by_cases hm : strStarts (utf8pat i) s = true
    · rw [if_pos hm, if_pos (strStarts_utf8pat_decodeFirst (Finset.mem_range.mp hi) hm)]
    · rw [if_neg hm]
      omega
  calc (∑ i ∈ Finset.range 256, if strStarts (utf8pat i) s then 1 else 0)
      ≤ ∑ i ∈ Finset.range 256, if i = decodeFirst s then 1 else 0 :=
        Finset.sum_le_sum hmono
    _ ≤ 1 := by
        rw [Finset.sum_ite_eq' (Finset.range 256) (decodeFirst s) (fun _ => 1)]
        split_ifs <;> omega

theorem countStarts_sum_le (s : List Nat) :
    (∑ i ∈ Finset.range 256, countStarts (utf8pat i) s) ≤ s.length := by
  induction s with
  | nil => simp [countStarts]
  | cons x xs ih =>
    have hstep : ∀ i, countStarts (utf8pat i) (x :: xs) =
        (if strStarts (utf8pat i) (x :: xs) then 1 else 0) + countStarts (utf8pat i) xs :=
      fun i => rfl
    calc (∑ i ∈ Finset.range 256, countStarts (utf8pat i) (x :: xs))
        = (∑ i ∈ Finset.range 256, if strStarts (utf8pat i) (x :: xs) then 1 else 0)
          + ∑ i ∈ Finset.range 256, countStarts (utf8pat i) xs := by
          simp only [hstep]
          exact Finset.sum_add_distrib
      _ ≤ 1 + xs.length := by
          have := utf8pat_indicator_sum_le_one (x :: xs)
          omega
      _ = (x :: xs).length := by simp [Nat.add_comm]

theorem stringsCount_total_le (data : List Nat) :
    (∑ i ∈ Finset.range 256, stringsCount data (utf8pat i)) ≤ data.length :=
  le_trans
    (Finset.sum_le_sum fun i _ => goCountSkip_le_countStarts (utf8pat i) data 0)
    (countStarts_sum_le data)

theorem stringsCount_le_length (data : List Nat) {i : Nat} (hi : i ∈ Finset.range 256) :
    stringsCount data (utf8pat i) ≤ data.length :=
  le_trans
    (Finset.single_le_sum (f := fun j => stringsCount data (utf8pat j))
      (fun _ _ => Nat.zero_le _) hi)
    (stringsCount_total_le data)

theorem entropyTerm_nonneg {p : ℝ} (h0 : 0 ≤ p) (h1 : p ≤ 1) : 0 ≤ entropyTerm p := by
  unfold entropyTerm
  split_ifs with hp
  · have hlog : Real.logb 2 p ≤ 0 :=
      Real.logb_nonpos (b := 2) (by norm_num) h0 h1
    nlinarith [hlog, hp.le]
  · exact le_refl 0

theorem entropyTerm_le_bound {p : ℝ} (h0 : 0 ≤ p) :
    entropyTerm p ≤ (1 / 256 - p) / Real.log 2 + 8 * p := by
  have hlog2 : (0 : ℝ) < Real.log 2 := Real.log_pos (by norm_num)
  unfold entropyTerm
  split_ifs with hp
  · have hx : (0 : ℝ) < 1 / (256 * p) := by positivity
    have hkey := Real.log_le_sub_one_of_pos hx
    have hlog_eq : Real.log (1 / (256 * p)) = -(Real.log 256 + Real.log p) := by
      rw [one_div, Real.log_inv, Real.log_mul (by norm_num) (ne_of_gt hp)]
    have h256 : Real.log 256 = 8 * Real.log 2 := by
      rw [show (256 : ℝ) = 2 ^ (8 : ℕ) by norm_num, Real.log_pow]
      push_cast
      ring
    have hmul := mul_le_mul_of_nonneg_left hkey h0
    have hps : p * (1 / (256 * p) - 1) = 1 / 256 - p := by
      field_simp
      ring
    have hcore : -p * Real.log p ≤ (1 / 256 - p) + 8 * p * Real.log 2 := by
      rw [hlog_eq] at hmul
      rw [hps] at hmul
      nlinarith [hmul, h256]
    calc -p * Real.logb 2 p = (-p * Real.log p) / Real.log 2 := by
          rw [Real.logb]
          ring
      _ ≤ ((1 / 256 - p) + 8 * p * Real.log 2) / Real.log 2 :=
          (div_le_div_iff_of_pos_right hlog2).mpr hcore
      _ = (1 / 256 - p) / Real.log 2 + 8 * p := by
          rw [add_div, mul_div_assoc, div_self (ne_of_gt hlog2), mul_one]
  · have hp0 : p = 0 := le_antisymm (not_lt.mp hp) h0
    rw [hp0]
    positivity

/-- C7: the entropy scorer always returns a value between 0 and 8. -/
theorem getEntropy_bounds (data : List Nat) :
    0 ≤ GetEntropy data ∧ GetEntropy data ≤ 8 := by
  unfold GetEntropy
  split_ifs with hdata
  · norm_num
  · have hn0 : 0 < data.length := List.length_pos.mpr hdata
    have hnR : (0 : ℝ) < (data.length : ℝ) := by exact_mod_cast hn0
    have hp0 : ∀ i ∈ Finset.range 256,
        0 ≤ (stringsCount data (utf8pat i) : ℝ) / (data.length : ℝ) := by
      intro i _
      positivity
    have hp1 : ∀ i ∈ Finset.range 256,
        (stringsCount data (utf8pat i) : ℝ) / (data.length : ℝ) ≤ 1 := by
      intro i hi
      rw [div_le_one hnR]
      exact_mod_cast stringsCount_le_length data hi
    constructor
    · exact Finset.sum_nonneg fun i hi => entropyTerm_nonneg (hp0 i hi) (hp1 i hi)
    · have hlog2 : (0 : ℝ) < Real.log 2 := Real.log_pos (by norm_num)
      have hsum_p : (∑ i ∈ Finset.range 256,
          (stringsCount data (utf8pat i) : ℝ) / (data.length : ℝ)) ≤ 1 := by
        rw [← Finset.sum_div, div_le_one hnR]
        exact_mod_cast stringsCount_total_le data
      have ht0 : 0 ≤ ∑ i ∈ Finset.range 256,
          (stringsCount data (utf8pat i) : ℝ) / (data.length : ℝ) :=
        Finset.sum_nonneg hp0
      have hstep : (∑ i ∈ Finset.range 256,
            entropyTerm ((stringsCount data (utf8pat i) : ℝ) / (data.length : ℝ)))
          ≤ ∑ i ∈ Finset.range 256,
            ((1 / 256 - (stringsCount data (utf8pat i) : ℝ) / (data.length : ℝ)) / Real.log 2
              + 8 * ((stringsCount data (utf8pat i) : ℝ) / (data.length : ℝ))) :=
        Finset.sum_le_sum fun i hi => entropyTerm_le_bound (hp0 i hi)
      have hsum_eq : (∑ i ∈ Finset.range 256,
            ((1 / 256 - (stringsCount data (utf8pat i) : ℝ) / (data.length : ℝ)) / Real.log 2
              + 8 * ((stringsCount data (utf8pat i) : ℝ) / (data.length : ℝ))))
          = (1 - ∑ i ∈ Finset.range 256,
              (stringsCount data (utf8pat i) : ℝ) / (data.length : ℝ)) / Real.log 2
            + 8 * ∑ i ∈ Finset.range 256,
              (stringsCount data (utf8pat i) : ℝ) / (data.length : ℝ) := by
        rw [Finset.sum_add_distrib, ← Finset.sum_div, Finset.sum_sub_distrib,
          Finset.sum_const, Finset.card_range, ← Finset.mul_sum]
        norm_num
      have hfin : (1 - ∑ i ∈ Finset.range 256,
            (stringsCount data (utf8pat i) : ℝ) / (data.length : ℝ)) / Real.log 2
          + 8 * (∑ i ∈ Finset.range 256,
            (stringsCount data (utf8pat i) : ℝ) / (data.length : ℝ)) ≤ 8 := by
        set t := ∑ i ∈ Finset.range 256,
          (stringsCount data (utf8pat i) : ℝ) / (data.length : ℝ) with ht
        have h1t : 0 ≤ 1 - t := by linarith
        have hdiv : (1 - t) / Real.log 2 ≤ 8 * (1 - t) := by
          rw [div_le_iff₀ hlog2]
          nlinarith [Real.log_two_gt_d9, h1t]
        linarith
      calc (∑ i ∈ Finset.range 256,
            entropyTerm ((stringsCount data (utf8pat i) : ℝ) / (data.length : ℝ)))
          ≤ _ := hstep
        _ ≤ 8 := by rw [hsum_eq]; exact hfin

theorem goCountSkip_single (a : Nat) (data : List Nat) :
    goCountSkip [a] data 0 = data.count a := by
  induction data with
  | nil => rfl
  | cons x xs ih =>
    show (if strStarts [a] (x :: xs) then 1 + goCountSkip [a] xs (List.length [a] - 1)
      else goCountSkip [a] xs 0) = (x :: xs).count a
    have hs : strStarts [a] (x :: xs) = (a == x) := by
      simp [strStarts]
    rw [hs, List.count_cons]
    by_cases h : a = x
    · rw [if_pos (by simp [h]), show List.length [a] - 1 = 0 from rfl, ih]
      simp [h, Nat.add_comm]
    · rw [if_neg (by simp [h]), ih]
      simp [h, Ne.symm h]

theorem goCountSkip_high_head (a : Nat) (ps : List Nat) :
    ∀ (data : List Nat), (∀ b ∈ data, b < 128) → 128 ≤ a →
      ∀ skip, goCountSkip (a :: ps) data skip = 0 := by
  intro data
  induction data with
  | nil => intro _ _ skip; rfl
  | cons x xs ih =>
    intro hb ha skip
    have hxs : ∀ b ∈ xs, b < 128 := fun b h => hb b (List.mem_cons_of_mem x h)
    cases skip with
    | succ k => exact ih hxs ha k
    | zero =>
      show (if strStarts (a :: ps) (x :: xs) then 1 + goCountSkip (a :: ps) xs (List.length (a :: ps) - 1)
        else goCountSkip (a :: ps) xs 0) = 0
      have hx : x < 128 := hb x (List.mem_cons_self x xs)
      rw [if_neg]
      · exact ih hxs ha 0
      · simp only [strStarts, Bool.and_eq_true, beq_iff_eq]
        rintro ⟨rfl, -⟩
        omega

theorem entropyTerm_half : entropyTerm (1 / 2 : ℝ) = 1 / 2 := by
  unfold entropyTerm
  rw [if_pos (by norm_num)]
  rw [show (1 / 2 : ℝ) = 2⁻¹ by norm_num, Real.logb_inv,
    Real.logb_self_eq_one (by norm_num)]
  norm_num

set_option maxRecDepth 10000 in
/-- Counterexample for C3: on the two-byte input `0xC2 0x80`, `GetEntropy`
returns 1/2 while the byte-level empirical Shannon entropy is 1 — because
`string(byte(i))` for `i ≥ 128` is the two-byte UTF-8 encoding of code
point `i`, so the code counts UTF-8 substrings, not bytes. -/
theorem getEntropy_ne_byteShannon :
    GetEntropy [194, 128] ≠ byteShannonEntropy [194, 128] := by
  have hL : GetEntropy [194, 128] = 1 / 2 := by
    unfold GetEntropy
    rw [if_neg (by simp)]
    have hz : ∀ b ∈ Finset.range 256, b ≠ 128 →
        stringsCount [194, 128] (utf8pat b) = 0 := by decide
    rw [Finset.sum_eq_single_of_mem 128 (by norm_num [Finset.mem_range])]
    · rw [show stringsCount [194, 128] (utf8pat 128) = 1 from rfl]
      norm_num [entropyTerm_half]
    · intro b hb hne
      rw [hz b hb hne]
      norm_num [entropyTerm]
  have hR : byteShannonEntropy [194, 128] = 1 := by
    unfold byteShannonEntropy
    rw [if_neg (by simp)]
    have hzero : ∀ b ∈ Finset.range 256, b ∉ ({128, 194} : Finset ℕ) →
        entropyTerm ((List.count b [194, 128] : ℝ) / ((List.length [194, 128] : ℕ) : ℝ)) = 0 := by
      intro b hb hnb
      have hcount : List.count b [194, 128] = 0 := by
        revert hnb
        revert hb
        revert b
        decide
      rw [hcount]
      norm_num [entropyTerm]
    rw [← Finset.sum_subset (by decide : ({128, 194} : Finset ℕ) ⊆ Finset.range 256) hzero,
      Finset.sum_pair (by norm_num : (128 : ℕ) ≠ 194)]
    rw [show List.count 128 [194, 128] = 1 from rfl,
      show List.count 194 [194, 128] = 1 from rfl]
    norm_num [entropyTerm_half]
  rw [hL, hR]
  norm_num

/-- C3 amended: for inputs consisting of ASCII bytes (all `< 128`) —
where `string(byte(i))` is the single byte `i` — `GetEntropy` equals the
byte-level empirical Shannon entropy, and the empty string scores 0. -/
theorem getEntropy_eq_byteShannon_of_ascii (data : List Nat)
    (h : ∀ b ∈ data, b < 128) :
    GetEntropy data = byteShannonEntropy data := by
  unfold GetEntropy byteShannonEntropy
  split_ifs with hdata
  · rfl
  · apply Finset.sum_congr rfl
    intro i _
    suffices hsc : stringsCount data (utf8pat i) = data.count i by rw [hsc]
    unfold stringsCount utf8pat
    split_ifs with hi128
    · exact goCountSkip_single i data
    · rw [goCountSkip_high_head _ _ data h (by omega) 0]
      symm
      rw [List.count_eq_zero]
      intro hmem
      exact absurd (h i hmem) (by omega)

/-- Witness for the amended C3: the ASCII input `"hi"` (bytes 104, 105)
satisfies the hypothesis and the two entropies agree on it; the empty
string yields exactly 0 on both sides. -/
theorem getEntropy_eq_byteShannon_of_ascii_witness :
    ((∀ b ∈ [104, 105], b < 128) ∧
      GetEntropy [104, 105] = byteShannonEntropy [104, 105]) ∧
    GetEntropy [] = 0 := by
  refine ⟨⟨by decide, getEntropy_eq_byteShannon_of_ascii [104, 105] (by decide)⟩, ?_⟩
  unfold GetEntropy
  rw [if_pos rfl]
